import Mathlib

/-!
Verification development for the `md_generator` pipeline
(`src/functions/md_generator/src/md_generator/markdown_logic.py` and
`src/functions/md_generator/src/md_generator/entrypoint.py`).

Python strings are modelled as `List Char`; Python `int` as `Int` (with
`Nat` where the source guarantees non-negativity, e.g. JSON segment
indices after `int(x or 0)` on non-negative inputs); JSON objects with
possibly-missing keys as structures of `Option` fields; the external
services (object storage, the Gemini markdown call) as explicit function
parameters, with the storage reads and writes performed by the
orchestrator tracked in the run result.
-/

/-! ## Python primitives -/

/-- Python slice `text[s:e]` for non-negative `s`, `e`: clamps at the end of
the list, never fails. -/
def pySlice (l : List Char) (s e : Nat) : List Char :=
  (l.drop s).take (e - s)

/-- Whitespace as recognised by Python `str.strip()` (ASCII part). -/
def pyIsSpace (c : Char) : Bool :=
  c == ' ' || c == '\t' || c == '\n' || c == '\r' || c == '\x0b' || c == '\x0c'

/-- Python `str.strip()`: remove leading and trailing whitespace. -/
def pyStrip (l : List Char) : List Char :=
  ((l.dropWhile pyIsSpace).reverse.dropWhile pyIsSpace).reverse

/-- Python `str.endswith(suffix)` on char lists. -/
def endsWithCL (l suffix : List Char) : Bool :=
  suffix.isSuffixOf l

/-- Python `name.endswith(suffix)` for `String` arguments. -/
def endsWithStr (s suffix : String) : Bool :=
  endsWithCL s.data suffix.data

/-- Split a char list at every `'/'` (like `"a/b".split("/")`); always
returns at least one (possibly empty) component. -/
def splitCharsOnSlash : List Char → List (List Char)
  | [] => [[]]
  | c :: rest =>
    match splitCharsOnSlash rest with
    | [] => []
    | h :: t => if c == '/' then [] :: h :: t else (c :: h) :: t

/-! ## `pathlib.PurePosixPath` fragments

Only the pieces used by the source are modelled: `.parts`, `.name`,
`.stem`, `.parent.as_posix()`. -/

/-- The root of a POSIX path: `//` for exactly two leading slashes,
`/` for one or three-plus, empty otherwise (pathlib's rule). -/
def posixRootChars : List Char → List Char
  | '/' :: '/' :: '/' :: _ => ['/']
  | '/' :: '/' :: _ => ['/', '/']
  | '/' :: _ => ['/']
  | _ => []

/-- Non-root path components: split on `/`, dropping empty and `.`
components, as `PurePosixPath` normalisation does. -/
def pathComponents (s : String) : List (List Char) :=
  (splitCharsOnSlash s.data).filter (fun c => !(c == []) && !(c == ['.']))

/-- Model of `PurePosixPath(s).parts`: the root (when present) followed by the
components. -/
def pathParts (s : String) : List (List Char) :=
  (if posixRootChars s.data = [] then [] else [posixRootChars s.data]) ++ pathComponents s

/-- Model of `PurePosixPath(s).name`: the final component, `""` if none. -/
def ppNameChars (s : String) : List Char :=
  ((pathComponents s).getLast?).getD []

/-- Model of `PurePosixPath(s).stem`: the name with its final extension removed;
the dot must be neither the first nor the last character of the name. -/
def ppStemChars (s : String) : List Char :=
  let n := ppNameChars s
  match n.reverse.findIdx? (· == '.') with
  | none => n
  | some k =>
    let i := n.length - 1 - k
    if 0 < i ∧ i < n.length - 1 then n.take i else n

/-- Model of `PurePosixPath(s).parent.as_posix()`. -/
def ppParentStr (s : String) : List Char :=
  let root := posixRootChars s.data
  let front := (pathComponents s).dropLast
  if front = [] then (if root = [] then ['.'] else root)
  else root ++ List.intercalate ['/'] front

/-! ## `markdown_logic.py` -/

/-- Dataclass `PageChunk`: half-open page range `[start_page, end_page)`. -/
structure PageChunk where
  start_page : Int
  end_page : Int
deriving DecidableEq, Repr

/-- Fuel-driven body of Python `range(start, stop, step)` for positive
`step` (structural recursion so that concrete runs evaluate). -/
def rangeStepAux : Nat → Nat → Nat → Nat → List Nat
  | 0, _, _, _ => []
  | fuel + 1, start, stop, step =>
    if start < stop then start :: rangeStepAux fuel (start + step) stop step else []

/-- Python `range(start, stop, step)` for positive `step`. -/
def rangeStep (start stop step : Nat) : List Nat :=
  rangeStepAux (stop - start) start stop step

/-- Embedding of `build_page_chunks(total_pages, chunk_size)`: split `total_pages`
into chunk ranges; non-positive totals give `[]`, a non-positive chunk
size is replaced by the default `10`. -/
def build_page_chunks (total_pages chunk_size : Int) : List PageChunk :=
  if total_pages ≤ 0 then []
  else
    let cs := if chunk_size ≤ 0 then 10 else chunk_size
    (rangeStep 0 total_pages.toNat cs.toNat).map
      (fun i : Nat => ⟨(i : Int), min ((i : Int) + cs) total_pages⟩)

/-- One `{"startIndex": s, "endIndex": e}` entry (after Python's
`int(seg.get(..., 0) or 0)` normalisation of non-negative inputs). -/
structure TextSegment where
  startIndex : Nat
  endIndex : Nat
deriving DecidableEq, Repr

/-- The `"textAnchor"` JSON object; `textSegments` may be absent. -/
structure TextAnchor where
  textSegments : Option (List TextSegment)
deriving DecidableEq, Repr

/-- The `"layout"` JSON object; `textAnchor` may be absent. -/
structure Layout where
  textAnchor : Option TextAnchor
deriving DecidableEq, Repr

/-- One entry of the `"pages"` array; `layout` may be absent. -/
structure Page where
  layout : Option Layout
deriving DecidableEq, Repr

/-- The decoded Document AI JSON: `text` and `pages` may be absent, and a
page entry may itself be null (`Option Page`). -/
structure DocAIJson where
  text : Option (List Char)
  pages : Option (List (Option Page))
deriving DecidableEq, Repr

/-- The chain `(page or {}).get("layout", {}).get("textAnchor", {})
.get("textSegments", []) or []`: any absent level yields no segments. -/
def segmentsOfPage : Option Page → List TextSegment
  | none => []
  | some pg =>
    match pg.layout with
    | none => []
    | some ly =>
      match ly.textAnchor with
      | none => []
      | some ta => ta.textSegments.getD []

/-- Embedding of `extract_text_from_page_range(doc_ai_json, start_page, end_page)`:
clamp the page range, then for each page in range and each segment with
`endIndex > startIndex` append `full_text[startIndex:endIndex]`, and
join the parts. The `for i in range(...)` loop over `pages[i]` is
rendered as a fold over the corresponding contiguous slice of `pages`. -/
def extract_text_from_page_range (doc : DocAIJson) (start_page end_page : Int) : List Char :=
  let full_text := doc.text.getD []
  let pages := doc.pages.getD []
  let sp := max 0 start_page
  let ep := min (pages.length : Int) end_page
  (((pages.drop sp.toNat).take (ep - sp).toNat).foldl
    (fun parts p =>
      (segmentsOfPage p).foldl
        (fun parts2 seg =>
          if seg.startIndex < seg.endIndex then
            parts2 ++ [pySlice full_text seg.startIndex seg.endIndex]
          else parts2)
        parts)
    ([] : List (List Char))).flatten

/-- First-match scan of `derive_output_markdown_name`: for each path
component in order, `.pdf_json` is stripped (9 chars), else `_pdf`
(4 chars), the result getting the `.md` extension. -/
def deriveFromParts : List (List Char) → Option (List Char)
  | [] => none
  | part :: rest =>
    if endsWithCL part ".pdf_json".data then
      some (part.take (part.length - 9) ++ ".md".data)
    else if endsWithCL part "_pdf".data then
      some (part.take (part.length - 4) ++ ".md".data)
    else deriveFromParts rest

/-- Python `re.sub(r"-\d+$", "", s)`: remove a final `-` followed by one
or more decimal digits, if present. -/
def stripDashDigits (s : List Char) : List Char :=
  let rev := s.reverse
  let digs := rev.takeWhile Char.isDigit
  if digs.isEmpty then s
  else
    match rev.drop digs.length with
    | '-' :: _ => (rev.drop (digs.length + 1)).reverse
    | _ => s

/-- Embedding of `derive_output_markdown_name(json_object_name)`: scan the path parts
for the historical directory suffixes, else fall back to the stripped
stem (or `"output"` when empty), always appending `.md`. -/
def derive_output_markdown_name (json_object_name : String) : List Char :=
  match deriveFromParts (pathParts json_object_name) with
  | some r => r
  | none =>
    let stem := stripDashDigits (ppStemChars json_object_name)
    (if stem = [] then "output".data else stem) ++ ".md".data

/-- Decimal value of a digit list. -/
def digitsVal (l : List Char) : Nat :=
  l.foldl (fun a c => a * 10 + (c.toNat - '0'.toNat)) 0

/-- Embedding of `_extract_trailing_number(name)`: the last run of decimal digits at
the end of `PurePosixPath(name).stem`, `-1` when there is none. -/
def extract_trailing_number (name : String) : Int :=
  let stem := ppStemChars name
  let digs := stem.reverse.takeWhile Char.isDigit
  if digs.isEmpty then -1 else ((digitsVal digs.reverse : Nat) : Int)

/-- The sort key `(parent path, trailing integer, file name)` used by
`sort_json_object_names`. -/
def sortKey (n : String) : List Char × Int × List Char :=
  (ppParentStr n, extract_trailing_number n, ppNameChars n)

/-- Python string `<`: lexicographic by code point, a proper prefix
being smaller. -/
def listCharLt : List Char → List Char → Bool
  | [], [] => false
  | [], _ :: _ => true
  | _ :: _, [] => false
  | a :: as, b :: bs => decide (a < b) || (a == b && listCharLt as bs)

/-- Python tuple `<=` on sort keys: lexicographic over the three
components. -/
def keyLeP (x y : List Char × Int × List Char) : Bool :=
  listCharLt x.1 y.1 ||
    (x.1 == y.1 &&
      (decide (x.2.1 < y.2.1) ||
        (x.2.1 == y.2.1 && (listCharLt x.2.2 y.2.2 || x.2.2 == y.2.2))))

/-- Key comparison between two object names. -/
def keyLe (a b : String) : Bool :=
  keyLeP (sortKey a) (sortKey b)

/-- Embedding of `sort_json_object_names(names)`: stable sort by `sortKey` (Python
`sorted` is a stable merge sort; `List.mergeSort` is its model). -/
def sort_json_object_names (names : List String) : List String :=
  names.mergeSort keyLe

/-! ## `entrypoint.py` -/

/-- The `cloud_event.data` payload: either key may be missing. -/
structure EventData where
  bucket : Option String
  name : Option String
deriving DecidableEq

/-- External collaborators: `services.storage.download_bytes` composed
with the UTF-8 JSON decode (`none` models any download/decode
exception), and `services.gemini.to_markdown` (`Except.error e` models a
raised exception with message `e`). -/
structure Env where
  download : String → String → Option DocAIJson
  to_markdown : List Char → Except (List Char) (List Char)

/-- The settings consumed by `generate_markdown`. -/
structure SettingsM where
  chunk_size : Int
  output_bucket : String

/-- The disjoint outcomes of one run, one per `return` site of
`generate_markdown`. -/
inductive RunOutcome where
  /-- `("不正なリクエスト: ...", 400)` for a missing payload key. -/
  | malformed (key : String)
  /-- `("JSON以外のためスキップしました。", 200)`. -/
  | skippedNonJson
  /-- `("ページが存在しません。", 200)`. -/
  | noPages
  /-- `("Markdownが空でした。", 200)`. -/
  | emptyMarkdown
  /-- `("成功", 200)`. -/
  | success
  /-- `("サーバー内部エラー", 500)` from the outer `except Exception`. -/
  | internalError
deriving DecidableEq, Repr

/-- The HTTP status code the entrypoint pairs with each outcome. -/
def statusOf : RunOutcome → Nat
  | .malformed _ => 400
  | .internalError => 500
  | _ => 200

/-- One run with its externally visible effects: the storage reads
attempted and the writes performed, in order. -/
structure RunResult where
  outcome : RunOutcome
  reads : List (String × String)
  writes : List (String × List Char × List Char)
deriving DecidableEq

/-- The visible part of the failure placeholder
`f"> [Error processing chunk {idx}: {e}]"` (without the surrounding
newlines). -/
def errPlaceholderCore (idx : Nat) (e : List Char) : List Char :=
  '>' :: (" [Error processing chunk ".data ++ (toString idx).data ++ ": ".data ++ e) ++ [']']

/-- The full placeholder `f"\n> [Error processing chunk {idx}: {e}]\n"`
appended when `to_markdown` raises. -/
def errPlaceholder (idx : Nat) (e : List Char) : List Char :=
  '\n' :: (errPlaceholderCore idx e ++ ['\n'])

/-- The chunk loop of `generate_markdown`, accumulating `md_parts`:
whitespace-only chunk text is skipped, a successful call appends its
output, a raising call appends the placeholder and continues. `idx` is
the 1-based `enumerate` counter. -/
def processChunksFrom (env : Env) (doc : DocAIJson) (idx : Nat) :
    List PageChunk → List (List Char)
  | [] => []
  | ch :: rest =>
    let text := extract_text_from_page_range doc ch.start_page ch.end_page
    if pyStrip text = [] then processChunksFrom env doc (idx + 1) rest
    else
      match env.to_markdown text with
      | .ok md => md :: processChunksFrom env doc (idx + 1) rest
      | .error e => errPlaceholder idx e :: processChunksFrom env doc (idx + 1) rest

/-- The `"\n\n"` separator used to join `md_parts`. -/
def mdSep : List Char := "\n\n".data

/-- Embedding of `generate_markdown(cloud_event)`: the pipeline orchestrator, with
its storage reads and writes made explicit in the result. -/
def generate_markdown (st : SettingsM) (env : Env) (eventData : Option EventData) : RunResult :=
  let data := eventData.getD ⟨none, none⟩
  match data.bucket with
  | none => ⟨.malformed "bucket", [], []⟩
  | some bucket =>
    match data.name with
    | none => ⟨.malformed "name", [], []⟩
    | some name =>
      if endsWithStr name ".json" then
        match env.download bucket name with
        | none => ⟨.internalError, [(bucket, name)], []⟩
        | some doc =>
          let total_pages := (doc.pages.getD []).length
          if total_pages ≤ 0 then ⟨.noPages, [(bucket, name)], []⟩
          else
            let chunks := build_page_chunks (total_pages : Int) st.chunk_size
            let md_parts := processChunksFrom env doc 1 chunks
            let final_md := pyStrip (List.intercalate mdSep md_parts)
            if final_md = [] then ⟨.emptyMarkdown, [(bucket, name)], []⟩
            else
              ⟨.success, [(bucket, name)],
                [(st.output_bucket, derive_output_markdown_name name, final_md)]⟩
      else ⟨.skippedNonJson, [], []⟩

/-! ## Spec-side definitions (for refinement-style claims) -/

/-- Spec wording of the Span Extractor contract (§4.2): clamp the range,
then concatenate, page by page and segment by segment, the slices of the
non-degenerate segments, with no separators. -/
def extractSpec (doc : DocAIJson) (start_page end_page : Int) : List Char :=
  let full_text := doc.text.getD []
  let pages := doc.pages.getD []
  let sp := max 0 start_page
  let ep := min (pages.length : Int) end_page
  (((pages.drop sp.toNat).take (ep - sp).toNat).map
    (fun p =>
      (((segmentsOfPage p).filter (fun seg => seg.startIndex < seg.endIndex)).map
        (fun seg => pySlice full_text seg.startIndex seg.endIndex)).flatten)).flatten

/-- Insertion of degenerate segments: `InsDegenSegs l l2` holds when
`l2` is `l` with extra segments satisfying `endIndex ≤ startIndex`
inserted at arbitrary positions. -/
inductive InsDegenSegs : List TextSegment → List TextSegment → Prop
  | nil : InsDegenSegs [] []
  | keep (seg : TextSegment) {l l2 : List TextSegment} :
      InsDegenSegs l l2 → InsDegenSegs (seg :: l) (seg :: l2)
  | ins (seg : TextSegment) {l l2 : List TextSegment} :
      seg.endIndex ≤ seg.startIndex → InsDegenSegs l l2 → InsDegenSegs l (seg :: l2)

/-- Documents related by inserting degenerate segments into pages:
same text, same page count, pagewise related segment lists. -/
def InsDegenDoc (d d2 : DocAIJson) : Prop :=
  d2.text = d.text ∧
    List.Forall₂ (fun p p2 => InsDegenSegs (segmentsOfPage p) (segmentsOfPage p2))
      (d.pages.getD []) (d2.pages.getD [])

/-- Clamp a segment's `endIndex` to the text length `n`. -/
def clampSeg (n : Nat) (seg : TextSegment) : TextSegment :=
  ⟨seg.startIndex, min seg.endIndex n⟩

/-- Map a function over every segment of a page, preserving the
optional structure. -/
def mapSegsPage (f : TextSegment → TextSegment) : Option Page → Option Page
  | none => none
  | some pg =>
    some ⟨pg.layout.map (fun ly =>
      ⟨ly.textAnchor.map (fun ta => ⟨ta.textSegments.map (List.map f)⟩)⟩)⟩

/-- Map a function over every segment of a document. -/
def mapSegsDoc (f : TextSegment → TextSegment) (d : DocAIJson) : DocAIJson :=
  ⟨d.text, d.pages.map (List.map (mapSegsPage f))⟩

/-- Convenience constructor for a fully populated page. -/
def mkPage (segs : List TextSegment) : Option Page :=
  some ⟨some ⟨some ⟨some segs⟩⟩⟩

/-- Convenience constructor for a document with text and pages present. -/
def mkDoc (text : List Char) (pages : List (Option Page)) : DocAIJson :=
  ⟨some text, some pages⟩

/-- A path component matches a historical directory-suffix rule. -/
def matchesDirSuffix (part : List Char) : Bool :=
  endsWithCL part ".pdf_json".data || endsWithCL part "_pdf".data

/-- The extracted text of one chunk of a document. -/
def chunkText (doc : DocAIJson) (ch : PageChunk) : List Char :=
  extract_text_from_page_range doc ch.start_page ch.end_page

/-! ## Concrete runs -/

/-- Settings with the default chunk size, as deployed. -/
def st0 : SettingsM := ⟨10, "out"⟩

/-- Settings with one page per chunk, to exercise multi-chunk runs. -/
def stW : SettingsM := ⟨1, "out"⟩

/-- An environment whose storage and transformation always fail. -/
def env0 : Env := ⟨fun _ _ => none, fun _ => .error []⟩

/-- A two-page document over the text `hello world`. -/
def docW : DocAIJson := mkDoc "hello world".data [mkPage [⟨0, 5⟩], mkPage [⟨5, 11⟩]]

/-- An environment that serves `docW` and raises `boom` exactly on the
first page's text. -/
def envW : Env :=
  ⟨fun _ _ => some docW,
   fun t => if t = "hello".data then .error "boom".data else .ok t⟩

/-- A zero-page document. -/
def docZ : DocAIJson := ⟨some "hi".data, some []⟩

/-- A one-page document whose only text is whitespace. -/
def docS : DocAIJson := mkDoc "   ".data [mkPage [⟨0, 3⟩]]

/-- An environment serving the zero-page document under `z.json` and
the whitespace document otherwise. -/
def envZ : Env := ⟨fun _ n => if n = "z.json" then some docZ else some docS, fun t => .ok t⟩

/-- The first part-file of the `book-1` group. -/
def doc0 : DocAIJson := mkDoc "alpha".data [mkPage [⟨0, 5⟩]]

/-- The second part-file of the `book-1` group. -/
def doc1 : DocAIJson := mkDoc "beta".data [mkPage [⟨0, 4⟩]]

/-- A storage holding both part-files of the `book-1` group, with an
identity transformation. -/
def envG : Env :=
  ⟨fun _ n =>
      if n = "book-1.pdf_json/0.json" then some doc0
      else if n = "book-1.pdf_json/1.json" then some doc1
      else none,
   fun t => .ok t⟩

/-! ## Chunk planner lemmas -/

/-- Closed form of the embedded Python `range`: for positive step and
enough fuel it is an arithmetic progression of length
`ceil((stop - start) / step)`. -/
theorem rangeStepAux_eq_range' :
    ∀ (fuel start stop step : Nat), 0 < step → stop - start ≤ fuel →
      rangeStepAux fuel start stop step
        = List.range' start ((stop - start + step - 1) / step) step := by
  intro fuel
  induction fuel with
  | zero =>
    intro start stop step hs hf
    have h0 : stop - start = 0 := by omega
    have hz : (step - 1) / step = 0 := Nat.div_eq_of_lt (by omega)
    simp [rangeStepAux, h0, hz]
  | succ fuel ih =>
    intro start stop step hs hf
    by_cases h : start < stop
    · have harith : (stop - start + step - 1) / step
          = (stop - (start + step) + step - 1) / step + 1 := by
        rcases le_or_lt (stop - start) step with hle | hlt
        · have h1 : stop - (start + step) = 0 := by omega
          have h2 : (step - 1) / step = 0 := Nat.div_eq_of_lt (by omega)
          have h2 : (0 + step - 1) / step = 0 := by
            rw [Nat.zero_add]; exact Nat.div_eq_of_lt (by omega)
          have h3 : (stop - start + step - 1) / step = 1 := by
            apply Nat.div_eq_of_lt_le <;> omega
          rw [h1, h3, h2]
        · have h1 : stop - (start + step) + step - 1 = stop - start - 1 := by omega
          have h2 : stop - start + step - 1 = stop - start - 1 + step := by omega
          rw [h1, h2, Nat.add_div_right _ hs]
      simp only [rangeStepAux, if_pos h]
      rw [harith, List.range'_succ, ih (start + step) stop step hs (by omega)]
    · have h0 : stop - start = 0 := by omega
      have hz : (step - 1) / step = 0 := Nat.div_eq_of_lt (by omega)
      simp [rangeStepAux, h, h0, hz]

/-- Closed form of `build_page_chunks` in the positive case. -/
theorem build_page_chunks_pos_eq (tp cs : Int) (h1 : 0 < tp) (h2 : 0 < cs) :
    build_page_chunks tp cs
      = (List.range' 0 ((tp.toNat + cs.toNat - 1) / cs.toNat) cs.toNat).map
          (fun i : Nat => ⟨(i : Int), min ((i : Int) + cs) tp⟩) := by
  have hcs : ¬ cs ≤ 0 := by omega
  have htp : ¬ tp ≤ 0 := by omega
  simp only [build_page_chunks, if_neg htp, if_neg hcs]
  rw [rangeStep, rangeStepAux_eq_range' _ _ _ _ (by omega) (by omega)]
  simp only [Nat.sub_zero]

/-- Ceiling division of positives, written with the predecessor. -/
theorem ceil_div_eq_pred_div_succ {tpn csn : Nat} (h1 : 0 < tpn) (h2 : 0 < csn) :
    (tpn + csn - 1) / csn = (tpn - 1) / csn + 1 := by
  have h : tpn + csn - 1 = (tpn - 1) + csn := by omega
  rw [h, Nat.add_div_right _ h2]

/-- Every chunk start produced in the positive case lies below the
total. -/
theorem mul_lt_total {tpn csn i : Nat} (h1 : 0 < tpn) (h2 : 0 < csn)
    (hi : i < (tpn + csn - 1) / csn) : csn * i < tpn := by
  have hn := ceil_div_eq_pred_div_succ h1 h2
  have hle : csn * i ≤ csn * ((tpn - 1) / csn) := Nat.mul_le_mul_left _ (by omega)
  have hdm : (tpn - 1) / csn * csn ≤ tpn - 1 := Nat.div_mul_le_self _ _
  have : csn * ((tpn - 1) / csn) ≤ tpn - 1 := by rw [Nat.mul_comm]; exact hdm
  omega

/-- The total is covered by `ceil` many chunks. -/
theorem total_le_mul_ceil {tpn csn : Nat} (h1 : 0 < tpn) (h2 : 0 < csn) :
    tpn ≤ csn * ((tpn + csn - 1) / csn) := by
  rw [ceil_div_eq_pred_div_succ h1 h2, Nat.mul_add, Nat.mul_one]
  have hd := Nat.div_add_mod (tpn - 1) csn
  have hm : (tpn - 1) % csn < csn := Nat.mod_lt _ h2
  omega

/-- Start page of the `i`-th chunk in the positive case. -/
theorem bpc_start {tp cs : Int} (h1 : 0 < tp) (h2 : 0 < cs) (i : Nat)
    (hi : i < (build_page_chunks tp cs).length) :
    ((build_page_chunks tp cs)[i]).start_page = ((cs.toNat * i : Nat) : Int) := by
  simp only [build_page_chunks_pos_eq tp cs h1 h2, List.getElem_map, List.getElem_range',
    Nat.zero_add]

/-- End page of the `i`-th chunk in the positive case. -/
theorem bpc_end {tp cs : Int} (h1 : 0 < tp) (h2 : 0 < cs) (i : Nat)
    (hi : i < (build_page_chunks tp cs).length) :
    ((build_page_chunks tp cs)[i]).end_page
      = min (((cs.toNat * i : Nat) : Int) + cs) tp := by
  simp only [build_page_chunks_pos_eq tp cs h1 h2, List.getElem_map, List.getElem_range',
    Nat.zero_add]

/-- Length formula for the chunks in the positive case. -/
theorem bpc_length {tp cs : Int} (h1 : 0 < tp) (h2 : 0 < cs) :
    (build_page_chunks tp cs).length = (tp.toNat + cs.toNat - 1) / cs.toNat := by
  rw [build_page_chunks_pos_eq tp cs h1 h2]
  simp

/-- C2 chain clause: consecutive chunks share their boundary. -/
theorem bpc_chain {tp cs : Int} (h1 : 0 < tp) (h2 : 0 < cs) :
    (build_page_chunks tp cs).Chain' (fun a b => a.end_page = b.start_page) := by
  have h1' : 0 < tp.toNat := by omega
  have h2' : 0 < cs.toNat := by omega
  rw [List.chain'_iff_get]
  intro i hi
  have hlen := bpc_length h1 h2
  have hi1 : i < (build_page_chunks tp cs).length := by omega
  have hi2 : i + 1 < (build_page_chunks tp cs).length := by omega
  simp only [List.get_eq_getElem, bpc_end h1 h2 i hi1, bpc_start h1 h2 (i + 1) hi2]
  have hmul : cs.toNat * (i + 1) < tp.toNat := by
    apply mul_lt_total h1' h2'
    omega
  rw [Nat.mul_succ] at hmul ⊢
  omega

/-- C2 ordering clause: chunk starts strictly increase. -/
theorem bpc_increasing {tp cs : Int} (h1 : 0 < tp) (h2 : 0 < cs) :
    (build_page_chunks tp cs).Pairwise (fun a b => a.start_page < b.start_page) := by
  have h2' : 0 < cs.toNat := by omega
  rw [List.pairwise_iff_getElem]
  intro i j hi hj hij
  rw [bpc_start h1 h2 i hi, bpc_start h1 h2 j hj]
  have := (Nat.mul_lt_mul_left h2').2 hij
  omega

/-- C2 head clause: the first chunk starts at page 0. -/
theorem bpc_head {tp cs : Int} (h1 : 0 < tp) (h2 : 0 < cs) :
    (build_page_chunks tp cs).head? = some ⟨0, min cs tp⟩ := by
  have h2' : 0 < cs.toNat := by omega
  have hn : 0 < (build_page_chunks tp cs).length := by
    rw [bpc_length h1 h2]
    exact Nat.div_pos (by omega) h2'
  rw [List.head?_eq_getElem?, List.getElem?_eq_getElem hn]
  have hs := bpc_start h1 h2 0 hn
  have he := bpc_end h1 h2 0 hn
  have : (build_page_chunks tp cs)[0] = ⟨0, min cs tp⟩ := by
    rw [Nat.mul_zero] at hs he
    simp only [Nat.cast_zero, Int.zero_add] at hs he
    rw [← hs, ← he]
  rw [this]

/-- C2 last clause: the final chunk ends exactly at the total. -/
theorem bpc_last {tp cs : Int} (h1 : 0 < tp) (h2 : 0 < cs) :
    ((build_page_chunks tp cs).getLast?).map PageChunk.end_page = some tp := by
  have h1' : 0 < tp.toNat := by omega
  have h2' : 0 < cs.toNat := by omega
  have hlen := bpc_length h1 h2
  have hXpos : 0 < (tp.toNat + cs.toNat - 1) / cs.toNat := Nat.div_pos (by omega) h2'
  have hn : 0 < (build_page_chunks tp cs).length := by omega
  have hn1 : (build_page_chunks tp cs).length - 1 < (build_page_chunks tp cs).length := by
    omega
  rw [List.getLast?_eq_getElem?, List.getElem?_eq_getElem hn1, Option.map_some',
    bpc_end h1 h2 _ hn1, hlen]
  have hm : ((tp.toNat + cs.toNat - 1) / cs.toNat - 1) + 1
      = (tp.toNat + cs.toNat - 1) / cs.toNat := by omega
  have h' : cs.toNat * (((tp.toNat + cs.toNat - 1) / cs.toNat - 1) + 1)
      = cs.toNat * ((tp.toNat + cs.toNat - 1) / cs.toNat - 1) + cs.toNat := by
    rw [Nat.mul_add, Nat.mul_one]
  rw [hm] at h'
  have hcov := total_le_mul_ceil h1' h2'
  congr 1
  omega

/-- C2 membership clause: every produced chunk is non-empty, at most
`cs` wide, and either full-width or ending at the total. -/
theorem bpc_mem {tp cs : Int} (h1 : 0 < tp) (h2 : 0 < cs) :
    ∀ c ∈ build_page_chunks tp cs,
      0 ≤ c.start_page ∧ c.start_page < c.end_page ∧ c.end_page - c.start_page ≤ cs ∧
        (c.end_page - c.start_page = cs ∨ c.end_page = tp) := by
  have h1' : 0 < tp.toNat := by omega
  have h2' : 0 < cs.toNat := by omega
  intro c hc
  obtain ⟨i, hi, rfl⟩ := List.mem_iff_getElem.1 hc
  rw [bpc_start h1 h2 i hi, bpc_end h1 h2 i hi]
  have hmul : cs.toNat * i < tp.toNat := by
    apply mul_lt_total h1' h2'
    rw [bpc_length h1 h2] at hi
    exact hi
  omega

/-- C2 coverage clause: every page index in `[0, tp)` lies in exactly
one chunk. -/
theorem bpc_cover {tp cs : Int} (h1 : 0 < tp) (h2 : 0 < cs) :
    ∀ p : Int, 0 ≤ p → p < tp →
      ∃! c : PageChunk, c ∈ build_page_chunks tp cs ∧ c.start_page ≤ p ∧ p < c.end_page := by
  have h1' : 0 < tp.toNat := by omega
  have h2' : 0 < cs.toNat := by omega
  intro p hp0 hptp
  have hlen := bpc_length h1 h2
  have hj1 : cs.toNat * (p.toNat / cs.toNat) ≤ p.toNat := by
    rw [Nat.mul_comm]; exact Nat.div_mul_le_self _ _
  have hj2 : p.toNat < cs.toNat * (p.toNat / cs.toNat) + cs.toNat := by
    have hdm := Nat.div_add_mod p.toNat cs.toNat
    have hm : p.toNat % cs.toNat < cs.toNat := Nat.mod_lt _ h2'
    omega
  have hjn : p.toNat / cs.toNat < (build_page_chunks tp cs).length := by
    rw [hlen, Nat.div_lt_iff_lt_mul h2', Nat.mul_comm]
    have := total_le_mul_ceil h1' h2'
    omega
  refine ⟨(build_page_chunks tp cs)[p.toNat / cs.toNat],
    ⟨List.getElem_mem hjn, ?_, ?_⟩, ?_⟩
  · rw [bpc_start h1 h2 _ hjn]
    omega
  · rw [bpc_end h1 h2 _ hjn]
    omega
  · rintro c' ⟨hc'm, hc's, hc'e⟩
    obtain ⟨k, hk, rfl⟩ := List.mem_iff_getElem.1 hc'm
    rw [bpc_start h1 h2 k hk] at hc's
    rw [bpc_end h1 h2 k hk] at hc'e
    have hk1 : cs.toNat * k ≤ p.toNat := by omega
    have hk2 : p.toNat < cs.toNat * k + cs.toNat := by omega
    have hkj : p.toNat / cs.toNat = k := by
      apply Nat.div_eq_of_lt_le
      · rw [Nat.mul_comm]; exact hk1
      · rw [Nat.succ_mul, Nat.mul_comm]; omega
    simp only [hkj]

/-- C2 count clause: exactly the ceiling of `tp / cs` chunks. -/
theorem bpc_count {tp cs : Int} (h1 : 0 < tp) (h2 : 0 < cs) :
    ((build_page_chunks tp cs).length : Int) = (tp + cs - 1) / cs := by
  rw [bpc_length h1 h2]
  have e1 : ((tp.toNat + cs.toNat - 1 : Nat) : Int) = tp + cs - 1 := by omega
  have e2 : ((cs.toNat : Nat) : Int) = cs := by omega
  rw [Int.natCast_div, e1, e2]

/-- C2: `build_page_chunks` meets the planner contract: non-positive
totals give the empty plan; a non-positive chunk size is replaced by the
default `10` instead of failing; and for positive inputs the plan has
exactly `ceil(totalPages / chunkSize)` chunks, in increasing start
order, contiguous, starting at 0, ending at `totalPages`, each non-empty
and of width `chunkSize` except possibly the last (clipped to the
total), covering every page index in `[0, totalPages)` exactly once. -/
theorem build_page_chunks_contract (tp cs : Int) :
    (tp ≤ 0 → build_page_chunks tp cs = []) ∧
    (cs ≤ 0 → build_page_chunks tp cs = build_page_chunks tp 10) ∧
    (0 < tp → 0 < cs →
      ((build_page_chunks tp cs).length : Int) = (tp + cs - 1) / cs ∧
      (build_page_chunks tp cs).Chain' (fun a b => a.end_page = b.start_page) ∧
      (build_page_chunks tp cs).Pairwise (fun a b => a.start_page < b.start_page) ∧
      (build_page_chunks tp cs).head? = some ⟨0, min cs tp⟩ ∧
      ((build_page_chunks tp cs).getLast?).map PageChunk.end_page = some tp ∧
      (∀ c ∈ build_page_chunks tp cs,
        0 ≤ c.start_page ∧ c.start_page < c.end_page ∧ c.end_page - c.start_page ≤ cs ∧
          (c.end_page - c.start_page = cs ∨ c.end_page = tp)) ∧
      (∀ p : Int, 0 ≤ p → p < tp →
        ∃! c : PageChunk,
          c ∈ build_page_chunks tp cs ∧ c.start_page ≤ p ∧ p < c.end_page)) := by
  refine ⟨?_, ?_, ?_⟩
  · intro h
    simp [build_page_chunks, h]
  · intro h
    by_cases htp : tp ≤ 0
    · simp [build_page_chunks, htp]
    · simp only [build_page_chunks, if_neg htp, if_pos h]
      norm_num
  · intro h1 h2
    exact ⟨bpc_count h1 h2, bpc_chain h1 h2, bpc_increasing h1 h2, bpc_head h1 h2,
      bpc_last h1 h2, bpc_mem h1 h2, bpc_cover h1 h2⟩

/-- Witness for C2 at `totalPages = 25`, `chunkSize = 10` (Example 1 of
the specification). -/
theorem build_page_chunks_contract_witness :
    build_page_chunks 25 10 = [⟨0, 10⟩, ⟨10, 20⟩, ⟨20, 25⟩] ∧
    ((build_page_chunks 25 10).length : Int) = (25 + 10 - 1) / 10 ∧
    (build_page_chunks 25 10).Chain' (fun a b => a.end_page = b.start_page) ∧
    build_page_chunks 0 7 = [] ∧
    build_page_chunks 25 0 = build_page_chunks 25 10 := by
  have h := build_page_chunks_contract 25 10
  refine ⟨by decide, (h.2.2 (by decide) (by decide)).1, (h.2.2 (by decide) (by decide)).2.1,
    (build_page_chunks_contract 0 7).1 (by decide),
    (build_page_chunks_contract 25 0).2.1 (by decide)⟩

/-! ## Span extractor lemmas -/

/-- The inner segment fold accumulates the filtered, sliced segments
after whatever is already in the accumulator. -/
theorem segFoldl (ft : List Char) (segs : List TextSegment) (acc : List (List Char)) :
    segs.foldl
        (fun parts2 seg =>
          if seg.startIndex < seg.endIndex then
            parts2 ++ [pySlice ft seg.startIndex seg.endIndex]
          else parts2)
        acc
      = acc ++ ((segs.filter (fun seg => seg.startIndex < seg.endIndex)).map
          (fun seg => pySlice ft seg.startIndex seg.endIndex)) := by
  induction segs generalizing acc with
  | nil => simp
  | cons seg rest ih =>
    by_cases h : seg.startIndex < seg.endIndex
    · simp [List.foldl_cons, if_pos h, ih, List.filter_cons, h]
    · simp [List.foldl_cons, if_neg h, ih, List.filter_cons, h]

/-- The outer page fold accumulates the per-page segment parts in page
order. -/
theorem pageFoldl (ft : List Char) (ps : List (Option Page)) (acc : List (List Char)) :
    ps.foldl
        (fun parts p =>
          (segmentsOfPage p).foldl
            (fun parts2 seg =>
              if seg.startIndex < seg.endIndex then
                parts2 ++ [pySlice ft seg.startIndex seg.endIndex]
              else parts2)
            parts)
        acc
      = acc ++ ps.flatMap
          (fun p => ((segmentsOfPage p).filter (fun seg => seg.startIndex < seg.endIndex)).map
            (fun seg => pySlice ft seg.startIndex seg.endIndex)) := by
  induction ps generalizing acc with
  | nil => simp
  | cons p rest ih =>
    rw [List.foldl_cons, ih, segFoldl]
    simp [List.flatMap_cons, List.append_assoc]

/-- Flattening a flat-map equals flattening the per-element flattenings. -/
theorem flatten_flatMap_eq {α β : Type} (f : α → List (List β)) (l : List α) :
    (l.flatMap f).flatten = (l.map (fun a => (f a).flatten)).flatten := by
  induction l with
  | nil => rfl
  | cons a rest ih => simp [List.flatMap_cons, ih]

/-- The source extractor agrees with the specification-style
map-filter-concatenate formulation. -/
theorem extract_eq_extractSpec (doc : DocAIJson) (sp ep : Int) :
    extract_text_from_page_range doc sp ep = extractSpec doc sp ep := by
  unfold extract_text_from_page_range extractSpec
  simp only [pageFoldl, List.nil_append, flatten_flatMap_eq]

/-- C5: the Span Extractor contract: `extract_text_from_page_range`
clamps the page range (out-of-range input is truncated, not rejected)
and returns, in page order then segment order with no separators, the
concatenation of `fullText[startIndex:endIndex]` for exactly the
segments with `endIndex > startIndex`, absent nested structure
contributing zero segments; on the two-page "hello world" document over
range `(0, 2)` it yields `"hello world"`. -/
theorem extract_text_contract :
    (∀ (doc : DocAIJson) (sp ep : Int),
      extract_text_from_page_range doc sp ep = extractSpec doc sp ep) ∧
    (∀ (doc : DocAIJson) (sp ep : Int),
      extract_text_from_page_range doc sp ep
        = extract_text_from_page_range doc (max 0 sp)
            (min ((doc.pages.getD []).length : Int) ep)) ∧
    extract_text_from_page_range
        (mkDoc "hello world".data [mkPage [⟨0, 5⟩], mkPage [⟨5, 11⟩]]) 0 2
      = "hello world".data ∧
    extract_text_from_page_range
        (mkDoc "hello world".data [some ⟨none⟩, mkPage [⟨5, 11⟩]]) (-7) 99
      = " world".data := by
  refine ⟨extract_eq_extractSpec, ?_, by decide, by decide⟩
  intro doc sp ep
  have h1 : max 0 (max 0 sp) = max 0 sp := by omega
  have h2 : min ((doc.pages.getD []).length : Int)
      (min ((doc.pages.getD []).length : Int) ep)
      = min ((doc.pages.getD []).length : Int) ep := by omega
  simp only [extract_text_from_page_range, h1, h2]

/-- Inserting degenerate segments does not change the filtered segment
list. -/
theorem insDegen_filter {l l2 : List TextSegment} (h : InsDegenSegs l l2) :
    l2.filter (fun seg => seg.startIndex < seg.endIndex)
      = l.filter (fun seg => seg.startIndex < seg.endIndex) := by
  induction h with
  | nil => rfl
  | keep seg h ih => simp [List.filter_cons, ih]
  | ins seg hdeg h ih =>
    have : ¬ seg.startIndex < seg.endIndex := by omega
    simp [List.filter_cons, this, ih]

/-- Pages related by degenerate-segment insertion contribute identical
per-page text. -/
theorem mapExtract_of_forall₂ (ft : List Char) {ps ps2 : List (Option Page)}
    (h : List.Forall₂ (fun p p2 => InsDegenSegs (segmentsOfPage p) (segmentsOfPage p2))
      ps ps2) :
    ps.map (fun p =>
        (((segmentsOfPage p).filter (fun seg => seg.startIndex < seg.endIndex)).map
          (fun seg => pySlice ft seg.startIndex seg.endIndex)).flatten)
      = ps2.map (fun p =>
        (((segmentsOfPage p).filter (fun seg => seg.startIndex < seg.endIndex)).map
          (fun seg => pySlice ft seg.startIndex seg.endIndex)).flatten) := by
  induction h with
  | nil => rfl
  | cons hpp hps ih => simp only [List.map_cons, insDegen_filter hpp, ih]

/-- C9: `extract_text_from_page_range` is invariant under inserting
degenerate segments (`endIndex ≤ startIndex`) into any pages' segment
lists. -/
theorem extract_insDegen_invariant (d d2 : DocAIJson) (sp ep : Int)
    (h : InsDegenDoc d d2) :
    extract_text_from_page_range d sp ep = extract_text_from_page_range d2 sp ep := by
  obtain ⟨htext, hpages⟩ := h
  rw [extract_eq_extractSpec, extract_eq_extractSpec]
  simp only [extractSpec]
  rw [htext, List.Forall₂.length_eq hpages]
  have hrel := List.forall₂_take ((min ((d2.pages.getD []).length : Int) ep
      - max 0 sp).toNat) (List.forall₂_drop (max 0 sp).toNat hpages)
  congr 1
  exact mapExtract_of_forall₂ _ hrel

/-- Witness for C9: inserting two degenerate segments around a real one
leaves the extracted text unchanged. -/
theorem extract_insDegen_invariant_witness :
    InsDegenDoc (mkDoc "abc".data [mkPage [⟨0, 2⟩]])
      (mkDoc "abc".data [mkPage [⟨5, 5⟩, ⟨0, 2⟩, ⟨9, 3⟩]]) ∧
    extract_text_from_page_range (mkDoc "abc".data [mkPage [⟨0, 2⟩]]) 0 1
      = extract_text_from_page_range
          (mkDoc "abc".data [mkPage [⟨5, 5⟩, ⟨0, 2⟩, ⟨9, 3⟩]]) 0 1 ∧
    extract_text_from_page_range (mkDoc "abc".data [mkPage [⟨0, 2⟩]]) 0 1 = "ab".data := by
  have hrel : InsDegenDoc (mkDoc "abc".data [mkPage [⟨0, 2⟩]])
      (mkDoc "abc".data [mkPage [⟨5, 5⟩, ⟨0, 2⟩, ⟨9, 3⟩]]) := by
    refine ⟨rfl, List.Forall₂.cons ?_ List.Forall₂.nil⟩
    exact .ins ⟨5, 5⟩ (by decide) (.keep ⟨0, 2⟩ (.ins ⟨9, 3⟩ (by decide) .nil))
  exact ⟨hrel, extract_insDegen_invariant _ _ 0 1 hrel, by decide⟩

/-- Python slice semantics: an `endIndex` beyond the end of the text
yields the same slice as one clamped to the text length. -/
theorem pySlice_clamp (ft : List Char) (s e : Nat) :
    pySlice ft s (min e ft.length) = pySlice ft s e := by
  unfold pySlice
  rw [List.take_eq_take]
  rw [List.length_drop]
  omega

/-- Mapping over the segments commutes with the optional-structure
accessor chain. -/
theorem segmentsOfPage_mapSegsPage (f : TextSegment → TextSegment) (p : Option Page) :
    segmentsOfPage (mapSegsPage f p) = (segmentsOfPage p).map f := by
  match p with
  | none => rfl
  | some ⟨none⟩ => rfl
  | some ⟨some ⟨none⟩⟩ => rfl
  | some ⟨some ⟨some ⟨none⟩⟩⟩ => rfl
  | some ⟨some ⟨some ⟨some segs⟩⟩⟩ => rfl

/-- One page's concatenated text is invariant under clamping every
segment's `endIndex` to the text length: an over-long segment produces
the clamped slice, and a segment starting past the end produces the
empty slice either way. -/
theorem clamp_page_flatten (ft : List Char) (segs : List TextSegment) :
    (((segs.map (clampSeg ft.length)).filter
        (fun seg => seg.startIndex < seg.endIndex)).map
      (fun seg => pySlice ft seg.startIndex seg.endIndex)).flatten
      = ((segs.filter (fun seg => seg.startIndex < seg.endIndex)).map
        (fun seg => pySlice ft seg.startIndex seg.endIndex)).flatten := by
  induction segs with
  | nil => rfl
  | cons seg rest ih =>
    by_cases h1 : seg.startIndex < seg.endIndex
    · by_cases h2 : seg.startIndex < min seg.endIndex ft.length
      · simp [List.filter_cons, clampSeg, h1, h2, ih, pySlice_clamp]
      · have hfs : ft.length ≤ seg.startIndex := by omega
        have hnil : pySlice ft seg.startIndex seg.endIndex = [] := by
          unfold pySlice
          rw [List.drop_eq_nil_of_le hfs, List.take_nil]
        simp [List.filter_cons, clampSeg, h1, h2, ih, hnil]
    · have h2 : ¬ seg.startIndex < min seg.endIndex ft.length := by omega
      simp [List.filter_cons, clampSeg, h1, h2, ih]

/-- C10: on documents whose segment indices are non-negative integers
(the `Nat`-valued model), `extract_text_from_page_range` is total and
treats a segment whose `endIndex` exceeds `len(fullText)` as the slice
clamped at the text's end: clamping every segment to the text length
never changes the result, even when the invariant
`startIndex ≤ endIndex ≤ len(fullText)` is violated; concretely, a
segment `(0, 99)` over the two-character text `"ab"` contributes
`"ab"`, and a segment starting past the end contributes nothing. -/
theorem extract_text_total_clamp :
    (∀ (d : DocAIJson) (sp ep : Int),
      extract_text_from_page_range (mapSegsDoc (clampSeg (d.text.getD []).length) d) sp ep
        = extract_text_from_page_range d sp ep) ∧
    extract_text_from_page_range (mkDoc "ab".data [mkPage [⟨0, 99⟩]]) 0 1 = "ab".data ∧
    extract_text_from_page_range (mkDoc "ab".data [mkPage [⟨5, 99⟩]]) 0 1 = [] := by
  refine ⟨?_, by decide, by decide⟩
  intro d sp ep
  rw [extract_eq_extractSpec, extract_eq_extractSpec]
  simp only [extractSpec, mapSegsDoc]
  have hpages : ((d.pages.map (List.map (mapSegsPage (clampSeg (d.text.getD []).length)))).getD [])
      = (d.pages.getD []).map (mapSegsPage (clampSeg (d.text.getD []).length)) := by
    cases d.pages <;> rfl
  rw [hpages, List.length_map, ← List.map_drop, ← List.map_take, List.map_map]
  congr 1
  apply List.map_congr_left
  intro p _
  simp only [Function.comp_apply, segmentsOfPage_mapSegsPage]
  exact clamp_page_flatten _ _

/-! ## Group ordering lemmas -/

/-- Lexicographic string comparison is irreflexive. -/
theorem listCharLt_irrefl (l : List Char) : listCharLt l l = false := by
  induction l with
  | nil => rfl
  | cons a arest ih => simp [listCharLt, ih]

/-- Lexicographic string comparison is transitive. -/
theorem listCharLt_trans {a b c : List Char}
    (h1 : listCharLt a b = true) (h2 : listCharLt b c = true) :
    listCharLt a c = true := by
  induction a generalizing b c with
  | nil =>
    cases b with
    | nil => simp [listCharLt] at h1
    | cons bh bt =>
      cases c with
      | nil => simp [listCharLt] at h2
      | cons ch ct => rfl
  | cons ah arest ih =>
    cases b with
    | nil => simp [listCharLt] at h1
    | cons bh bt =>
      cases c with
      | nil => simp [listCharLt] at h2
      | cons ch ct =>
        simp only [listCharLt, Bool.or_eq_true, Bool.and_eq_true, decide_eq_true_eq,
          beq_iff_eq] at h1 h2 ⊢
        rcases h1 with h1 | ⟨rfl, h1⟩
        · rcases h2 with h2 | ⟨rfl, h2⟩
          · exact Or.inl (lt_trans h1 h2)
          · exact Or.inl h1
        · rcases h2 with h2 | ⟨rfl, h2⟩
          · exact Or.inl h2
          · exact Or.inr ⟨rfl, ih h1 h2⟩

/-- Lexicographic string comparison is trichotomous. -/
theorem listCharLt_trichotomy :
    ∀ a b : List Char, listCharLt a b = true ∨ a = b ∨ listCharLt b a = true := by
  intro a
  induction a with
  | nil =>
    intro b
    cases b with
    | nil => exact Or.inr (Or.inl rfl)
    | cons bh bt => exact Or.inl rfl
  | cons ah arest ih =>
    intro b
    cases b with
    | nil => exact Or.inr (Or.inr rfl)
    | cons bh bt =>
      rcases lt_trichotomy ah bh with h | h | h
      · left
        simp [listCharLt, h]
      · subst h
        rcases ih bt with h2 | h2 | h2
        · left
          simp [listCharLt, h2]
        · right
          left
          rw [h2]
        · right
          right
          simp [listCharLt, h2]
      · right
        right
        simp [listCharLt, h]

/-- The tuple comparison is transitive. -/
theorem keyLeP_trans {x y z : List Char × Int × List Char}
    (h1 : keyLeP x y = true) (h2 : keyLeP y z = true) : keyLeP x z = true := by
  obtain ⟨x1, n1, f1⟩ := x
  obtain ⟨y1, ny, fy⟩ := y
  obtain ⟨z1, nz, fz⟩ := z
  simp only [keyLeP, Bool.or_eq_true, Bool.and_eq_true, decide_eq_true_eq,
    beq_iff_eq] at h1 h2 ⊢
  rcases h1 with h1 | ⟨rfl, h1⟩
  · rcases h2 with h2 | ⟨rfl, h2⟩
    · exact Or.inl (listCharLt_trans h1 h2)
    · exact Or.inl h1
  · rcases h2 with h2 | ⟨rfl, h2⟩
    · exact Or.inl h2
    · refine Or.inr ⟨rfl, ?_⟩
      rcases h1 with hn1 | ⟨rfl, hf1⟩
      · rcases h2 with hn2 | ⟨rfl, hf2⟩
        · exact Or.inl (by omega)
        · exact Or.inl hn1
      · rcases h2 with hn2 | ⟨rfl, hf2⟩
        · exact Or.inl hn2
        · refine Or.inr ⟨rfl, ?_⟩
          rcases hf1 with hf1 | rfl
          · rcases hf2 with hf2 | rfl
            · exact Or.inl (listCharLt_trans hf1 hf2)
            · exact Or.inl hf1
          · exact hf2

/-- The tuple comparison is total. -/
theorem keyLeP_total (x y : List Char × Int × List Char) :
    keyLeP x y = true ∨ keyLeP y x = true := by
  obtain ⟨x1, n1, f1⟩ := x
  obtain ⟨y1, ny, fy⟩ := y
  simp only [keyLeP, Bool.or_eq_true, Bool.and_eq_true, decide_eq_true_eq, beq_iff_eq]
  rcases listCharLt_trichotomy x1 y1 with h | rfl | h
  · exact Or.inl (Or.inl h)
  · rcases lt_trichotomy n1 ny with h | rfl | h
    · exact Or.inl (Or.inr ⟨rfl, Or.inl h⟩)
    · rcases listCharLt_trichotomy f1 fy with h2 | rfl | h2
      · exact Or.inl (Or.inr ⟨rfl, Or.inr ⟨rfl, Or.inl h2⟩⟩)
      · exact Or.inl (Or.inr ⟨rfl, Or.inr ⟨rfl, Or.inr rfl⟩⟩)
      · exact Or.inr (Or.inr ⟨rfl, Or.inr ⟨rfl, Or.inl h2⟩⟩)
    · exact Or.inr (Or.inr ⟨rfl, Or.inl h⟩)
  · exact Or.inr (Or.inl h)

/-- Transitivity of the name comparison. -/
theorem keyLe_trans (a b c : String) (h1 : keyLe a b = true) (h2 : keyLe b c = true) :
    keyLe a c = true :=
  keyLeP_trans h1 h2

/-- Totality of the name comparison. -/
theorem keyLe_total (a b : String) : (keyLe a b || keyLe b a) = true := by
  rcases keyLeP_total (sortKey a) (sortKey b) with h | h <;> simp [keyLe, h]

/-- C6: `sort_json_object_names` is a stable total ordering by the key
`(parent path, trailing integer of the file stem, full file name)`: its
output is sorted by the key and a permutation of the input, sorted
(key-ordered) sublists are preserved (stability), applying it twice
equals applying it once, a stem with no trailing run of decimal digits
gets key value `-1`, every key value is at least `-1`, and a name
without a trailing integer sorts strictly before every name in the same
parent directory that has one. -/
theorem sort_json_object_names_total_order :
    (∀ names : List String,
      (sort_json_object_names names).Pairwise (fun a b => keyLe a b = true)) ∧
    (∀ names : List String, (sort_json_object_names names).Perm names) ∧
    (∀ names : List String,
      sort_json_object_names (sort_json_object_names names)
        = sort_json_object_names names) ∧
    (∀ (names c : List String),
      c.Pairwise (fun a b => keyLe a b = true) → c.Sublist names →
        c.Sublist (sort_json_object_names names)) ∧
    (∀ a : String, (ppStemChars a).reverse.takeWhile Char.isDigit = [] →
      extract_trailing_number a = -1) ∧
    (∀ b : String, -1 ≤ extract_trailing_number b) ∧
    (∀ a b : String, ppParentStr a = ppParentStr b → extract_trailing_number a = -1 →
      0 ≤ extract_trailing_number b → keyLe a b = true ∧ keyLe b a = false) := by
  have hsorted : ∀ names : List String,
      (sort_json_object_names names).Pairwise (fun a b => keyLe a b = true) := by
    intro names
    exact List.sorted_mergeSort keyLe_trans keyLe_total names
  refine ⟨hsorted, ?_, ?_, ?_, ?_, ?_, ?_⟩
  · intro names
    exact List.mergeSort_perm names keyLe
  · intro names
    exact List.mergeSort_of_sorted (hsorted names)
  · intro names c hc hsub
    exact List.sublist_mergeSort keyLe_trans keyLe_total hc hsub
  · intro a h
    simp [extract_trailing_number, h]
  · intro b
    simp only [extract_trailing_number]
    split <;> omega
  · intro a b hpar hna hnb
    constructor
    · simp only [keyLe, sortKey, keyLeP, Bool.or_eq_true, Bool.and_eq_true,
        decide_eq_true_eq, beq_iff_eq]
      exact Or.inr ⟨hpar, Or.inl (by omega)⟩
    · rw [Bool.eq_false_iff]
      intro hcon
      simp only [keyLe, sortKey, keyLeP, Bool.or_eq_true, Bool.and_eq_true,
        decide_eq_true_eq, beq_iff_eq] at hcon
      rw [hpar] at hcon
      rcases hcon with h | ⟨he, h⟩
      · simp [listCharLt_irrefl] at h
      · rcases h with h | ⟨h, _⟩ <;> omega

unseal List.merge List.mergeSort in
/-- Witness for C6 on a concrete sibling group: the un-indexed name
sorts first, and sorting twice equals sorting once. -/
theorem sort_json_object_names_total_order_witness :
    sort_json_object_names ["p/3.json", "p/a.json", "p/0.json"]
        = ["p/a.json", "p/0.json", "p/3.json"] ∧
    sort_json_object_names (sort_json_object_names ["p/3.json", "p/a.json", "p/0.json"])
        = sort_json_object_names ["p/3.json", "p/a.json", "p/0.json"] ∧
    keyLe "p/a.json" "p/3.json" = true ∧ keyLe "p/3.json" "p/a.json" = false := by
  have h7 := sort_json_object_names_total_order.2.2.2.2.2.2 "p/a.json" "p/3.json"
      (by decide) (by decide) (by decide)
  exact ⟨by decide, sort_json_object_names_total_order.2.2.1 _, h7.1, h7.2⟩

/-! ## Output namer -/

/-- The component scan returns the result for the first component
matching either suffix. -/
theorem deriveFromParts_eq_find? (parts : List (List Char)) :
    deriveFromParts parts =
      match parts.find? matchesDirSuffix with
      | some part =>
        some ((if endsWithCL part ".pdf_json".data then part.take (part.length - 9)
               else part.take (part.length - 4)) ++ ".md".data)
      | none => none := by
  induction parts with
  | nil => rfl
  | cons part rest ih =>
    by_cases h1 : endsWithCL part ".pdf_json".data
    · simp [deriveFromParts, List.find?_cons, matchesDirSuffix, h1]
    · by_cases h2 : endsWithCL part "_pdf".data
      · simp [deriveFromParts, List.find?_cons, matchesDirSuffix, h1, h2]
      · simp [deriveFromParts, List.find?_cons, matchesDirSuffix, h1, h2, ih]

/-- C4 counterexample: on `a_pdf/b.pdf_json/x.json` a component ends
with the grouped-json-directory suffix `.pdf_json`, yet the output is
`a.md` (from the earlier `_pdf` component), not `b.md`: rule 1 does not
take precedence over rule 2 across components. -/
theorem derive_output_markdown_name_counterexample :
    "b.pdf_json".data ∈ pathParts "a_pdf/b.pdf_json/x.json" ∧
    endsWithCL "b.pdf_json".data ".pdf_json".data = true ∧
    derive_output_markdown_name "a_pdf/b.pdf_json/x.json" = "a.md".data ∧
    ¬ derive_output_markdown_name "a_pdf/b.pdf_json/x.json" = "b.md".data := by
  decide

/-- C4 (amended): `derive_output_markdown_name` scans the path
components left to right; the first component ending with `.pdf_json`
or `_pdf` wins, with `.pdf_json` checked before `_pdf` on that single
component, so an earlier `_pdf` component takes precedence over a later
`.pdf_json` one; only when no component carries either suffix is the
stem rule applied (strip one trailing `-<digits>` group, substitute
`output` for an empty stem, append `.md`). -/
theorem derive_output_markdown_name_first_component (name : String) :
    derive_output_markdown_name name =
      match (pathParts name).find? matchesDirSuffix with
      | some part =>
        (if endsWithCL part ".pdf_json".data then part.take (part.length - 9)
         else part.take (part.length - 4)) ++ ".md".data
      | none =>
        (if stripDashDigits (ppStemChars name) = [] then "output".data
         else stripDashDigits (ppStemChars name)) ++ ".md".data := by
  unfold derive_output_markdown_name
  rw [deriveFromParts_eq_find?]
  cases h : (pathParts name).find? matchesDirSuffix <;> simp

/-! ## Orchestrator lemmas -/

/-- A run that passes validation, the extension gate, the download and
the page check ends in the aggregate/write tail of the orchestrator. -/
theorem generate_markdown_run (st : SettingsM) (env : Env) (bucket name : String)
    (doc : DocAIJson)
    (hjson : endsWithStr name ".json" = true)
    (hdl : env.download bucket name = some doc)
    (hpg : 0 < ((doc.pages).getD []).length) :
    generate_markdown st env (some ⟨some bucket, some name⟩)
      = (if pyStrip (List.intercalate mdSep
            (processChunksFrom env doc 1
              (build_page_chunks ((((doc.pages).getD []).length : Nat) : Int)
                st.chunk_size))) = []
         then ⟨.emptyMarkdown, [(bucket, name)], []⟩
         else
          ⟨.success, [(bucket, name)],
            [(st.output_bucket, derive_output_markdown_name name,
              pyStrip (List.intercalate mdSep
                (processChunksFrom env doc 1
                  (build_page_chunks ((((doc.pages).getD []).length : Nat) : Int)
                    st.chunk_size))))]⟩) := by
  have hnle : ¬ (((doc.pages).getD []).length ≤ 0) := by omega
  simp only [generate_markdown, Option.getD_some, hjson, if_true, hdl, hnle, if_false]

/-- The chunk loop distributes over list append, advancing the
1-based counter by the length of the first part. -/
theorem processChunksFrom_append (env : Env) (doc : DocAIJson) (k : Nat)
    (pre post : List PageChunk) :
    processChunksFrom env doc k (pre ++ post)
      = processChunksFrom env doc k pre ++ processChunksFrom env doc (k + pre.length) post := by
  induction pre generalizing k with
  | nil => simp [processChunksFrom]
  | cons ch rest ih =>
    have harg : k + 1 + rest.length = k + (rest.length + 1) := by omega
    have ih' := ih (k + 1)
    rw [harg] at ih'
    by_cases hs : pyStrip (extract_text_from_page_range doc ch.start_page ch.end_page) = []
    · simp only [List.cons_append, processChunksFrom, hs, if_true, List.length_cons]
      rw [List.append_eq, ih']
    · cases hm : env.to_markdown (extract_text_from_page_range doc ch.start_page ch.end_page) with
      | ok md =>
        simp only [List.cons_append, processChunksFrom, hs, if_false, hm, List.length_cons]
        rw [List.append_eq, ih']
      | error e =>
        simp only [List.cons_append, processChunksFrom, hs, if_false, hm, List.length_cons]
        rw [List.append_eq, ih']

/-- The output of any successfully transformed, non-whitespace chunk is
collected by the chunk loop. -/
theorem processChunksFrom_mem (env : Env) (doc : DocAIJson) :
    ∀ (chunks : List PageChunk) (k j : Nat) (hj : j < chunks.length) (m : List Char),
      ¬ pyStrip (chunkText doc chunks[j]) = [] →
      env.to_markdown (chunkText doc chunks[j]) = .ok m →
      m ∈ processChunksFrom env doc k chunks := by
  intro chunks
  induction chunks with
  | nil =>
    intro k j hj
    exact absurd hj (by simp)
  | cons ch rest ih =>
    intro k j hj m hws hok
    cases j with
    | zero =>
      simp only [List.getElem_cons_zero, chunkText] at hws hok
      simp only [processChunksFrom, hws, if_false, hok]
      exact List.mem_cons_self _ _
    | succ j' =>
      have hj' : j' < rest.length := by
        simp at hj
        omega
      have hmem := ih (k + 1) j' hj' m (by simpa using hws) (by simpa using hok)
      by_cases hs : pyStrip (extract_text_from_page_range doc ch.start_page ch.end_page) = []
      · simp only [processChunksFrom, hs, if_true]
        exact hmem
      · cases hm : env.to_markdown (extract_text_from_page_range doc ch.start_page ch.end_page) with
        | ok md =>
          simp only [processChunksFrom, hs, if_false, hm]
          exact List.mem_cons_of_mem _ hmem
        | error e =>
          simp only [processChunksFrom, hs, if_false, hm]
          exact List.mem_cons_of_mem _ hmem

/-- A non-matching element survives `dropWhile`. -/
theorem mem_dropWhile_of_not (p : Char → Bool) {c : Char} {l : List Char}
    (hc : p c = false) (h : c ∈ l) : c ∈ l.dropWhile p := by
  induction l with
  | nil => exact absurd h (by simp)
  | cons a t ih =>
    by_cases hpa : p a
    · rw [List.dropWhile_cons, if_pos hpa]
      rcases List.mem_cons.1 h with rfl | hmem
      · rw [hpa] at hc
        exact absurd hc (by simp)
      · exact ih hmem
    · rw [List.dropWhile_cons, if_neg hpa]
      exact h

/-- A list containing a non-whitespace character does not strip to
empty. -/
theorem pyStrip_ne_nil_of_mem {c : Char} {l : List Char}
    (hmem : c ∈ l) (hc : pyIsSpace c = false) : pyStrip l ≠ [] := by
  intro hnil
  unfold pyStrip at hnil
  rw [List.reverse_eq_nil_iff, List.dropWhile_eq_nil_iff] at hnil
  have h1 : c ∈ l.dropWhile pyIsSpace := mem_dropWhile_of_not _ hc hmem
  have h2 : c ∈ (l.dropWhile pyIsSpace).reverse := List.mem_reverse.2 h1
  have := hnil c h2
  rw [hc] at this
  exact absurd this (by simp)

/-- Every element of a list is an element of its interspersion. -/
theorem mem_intersperse_of_mem {x : List Char} (sep : List Char) :
    ∀ {parts : List (List Char)}, x ∈ parts → x ∈ List.intersperse sep parts := by
  intro parts
  induction parts with
  | nil => intro h; exact absurd h (by simp)
  | cons a rest ih =>
    intro h
    cases rest with
    | nil => simpa using h
    | cons b rest2 =>
      rw [List.intersperse_cons₂]
      rcases List.mem_cons.1 h with rfl | hmem
      · exact List.mem_cons_self _ _
      · exact List.mem_cons_of_mem _ (List.mem_cons_of_mem _ (ih hmem))

/-- Every part is an infix of the joined string. -/
theorem infix_intercalate_of_mem {x : List Char} {sep : List Char}
    {parts : List (List Char)} (h : x ∈ parts) : x <:+: List.intercalate sep parts := by
  have : List.intercalate sep parts = (List.intersperse sep parts).flatten := rfl
  rw [this]
  exact List.infix_of_mem_flatten (mem_intersperse_of_mem sep h)

/-- An infix starting with a non-whitespace character survives
`dropWhile pyIsSpace`. -/
theorem infix_dropWhile_of_head {c : Char} {rest l : List Char}
    (hc : pyIsSpace c = false) (h : (c :: rest) <:+: l) :
    (c :: rest) <:+: l.dropWhile pyIsSpace := by
  induction l with
  | nil =>
    rw [List.infix_nil] at h
    exact absurd h (by simp)
  | cons a t ih =>
    by_cases hpa : pyIsSpace a
    · rw [List.dropWhile_cons, if_pos hpa]
      rcases List.infix_cons_iff.1 h with hpre | hinf
      · rcases List.prefix_cons_iff.1 hpre with hnil | ⟨t2, heq, _⟩
        · exact absurd hnil (by simp)
        · cases heq
          rw [hpa] at hc
          exact absurd hc (by simp)
      · exact ih hinf
    · rw [List.dropWhile_cons, if_neg hpa]
      exact h

/-- An infix with non-whitespace first and last characters survives
`pyStrip`. -/
theorem infix_pyStrip {c d : Char} {mid l : List Char}
    (hc : pyIsSpace c = false) (hd : pyIsSpace d = false)
    (h : (c :: mid ++ [d]) <:+: l) : (c :: mid ++ [d]) <:+: pyStrip l := by
  have h1 := infix_dropWhile_of_head hc h
  have h2 : (c :: mid ++ [d]).reverse <:+: (l.dropWhile pyIsSpace).reverse :=
    List.reverse_infix.2 h1
  have hrev : (c :: mid ++ [d]).reverse = d :: (mid.reverse ++ [c]) := by simp
  rw [hrev] at h2
  have h3 := infix_dropWhile_of_head hd h2
  refine List.reverse_infix.1 ?_
  unfold pyStrip
  rw [List.reverse_reverse, hrev]
  exact h3

/-- The chunk loop records the placeholder for a failing, non-blank
chunk at its 1-based position. -/
theorem processChunksFrom_error_mem (env : Env) (doc : DocAIJson)
    (chunks : List PageChunk) (k i : Nat) (e : List Char) (hi : i < chunks.length)
    (hws : ¬ pyStrip (chunkText doc chunks[i]) = [])
    (herr : env.to_markdown (chunkText doc chunks[i]) = .error e) :
    errPlaceholder (k + i) e ∈ processChunksFrom env doc k chunks := by
  have hlen : (chunks.take i).length = i := by
    rw [List.length_take]
    omega
  have hstep : processChunksFrom env doc k chunks
      = processChunksFrom env doc k (chunks.take i)
        ++ processChunksFrom env doc (k + i) (chunks[i] :: chunks.drop (i + 1)) := by
    conv_lhs =>
      rw [show chunks = chunks.take i ++ chunks[i] :: chunks.drop (i + 1) by
        conv_lhs => rw [← List.take_append_drop i chunks]
        rw [List.drop_eq_getElem_cons hi]]
    rw [processChunksFrom_append, hlen]
  rw [hstep]
  apply List.mem_append_right
  simp only [chunkText] at hws herr
  simp only [processChunksFrom, hws, if_false, herr]
  exact List.mem_cons_self _ _

/-- C3: failure containment: if the external transformation raises on
one non-blank chunk, the orchestrator appends the visibly-marked
placeholder naming that chunk and the reason, continues with the
remaining chunks (every other successfully transformed non-blank
chunk's output is still collected), the run ends in Success (HTTP 200)
and the single written artifact contains the placeholder text. -/
theorem chunk_failure_contained
    (st : SettingsM) (env : Env) (bucket name : String) (doc : DocAIJson)
    (chunks : List PageChunk) (i : Nat) (e : List Char)
    (hjson : endsWithStr name ".json" = true)
    (hdl : env.download bucket name = some doc)
    (hpg : 0 < ((doc.pages).getD []).length)
    (hch : chunks = build_page_chunks ((((doc.pages).getD []).length : Nat) : Int) st.chunk_size)
    (hi : i < chunks.length)
    (hws : ¬ pyStrip (chunkText doc chunks[i]) = [])
    (herr : env.to_markdown (chunkText doc chunks[i]) = .error e) :
    (generate_markdown st env (some ⟨some bucket, some name⟩)).outcome = .success ∧
    statusOf (generate_markdown st env (some ⟨some bucket, some name⟩)).outcome = 200 ∧
    (generate_markdown st env (some ⟨some bucket, some name⟩)).writes.length = 1 ∧
    errPlaceholder (i + 1) e ∈ processChunksFrom env doc 1 chunks ∧
    (∀ w ∈ (generate_markdown st env (some ⟨some bucket, some name⟩)).writes,
      errPlaceholderCore (i + 1) e <:+: w.2.2) ∧
    (∀ (j : Nat) (hj : j < chunks.length) (m : List Char), j ≠ i →
      ¬ pyStrip (chunkText doc chunks[j]) = [] →
      env.to_markdown (chunkText doc chunks[j]) = .ok m →
      m ∈ processChunksFrom env doc 1 chunks) := by
  have hmem : errPlaceholder (i + 1) e ∈ processChunksFrom env doc 1 chunks := by
    have := processChunksFrom_error_mem env doc chunks 1 i e hi hws herr
    rwa [Nat.add_comm 1 i] at this
  have hcore_in : errPlaceholderCore (i + 1) e <:+: errPlaceholder (i + 1) e :=
    ⟨['\n'], ['\n'], by simp [errPlaceholder]⟩
  have hcore_join : errPlaceholderCore (i + 1) e
      <:+: List.intercalate mdSep (processChunksFrom env doc 1 chunks) :=
    hcore_in.trans (infix_intercalate_of_mem hmem)
  have hcore_strip : errPlaceholderCore (i + 1) e
      <:+: pyStrip (List.intercalate mdSep (processChunksFrom env doc 1 chunks)) := by
    unfold errPlaceholderCore at hcore_join ⊢
    exact infix_pyStrip (by decide) (by decide) hcore_join
  have hgt : '>' ∈ List.intercalate mdSep (processChunksFrom env doc 1 chunks) :=
    hcore_join.sublist.subset (List.mem_cons_self _ _)
  have hne : ¬ pyStrip (List.intercalate mdSep (processChunksFrom env doc 1 chunks)) = [] :=
    pyStrip_ne_nil_of_mem hgt (by decide)
  have hrun := generate_markdown_run st env bucket name doc hjson hdl hpg
  rw [← hch] at hrun
  rw [hrun, if_neg hne]
  refine ⟨rfl, rfl, rfl, hmem, ?_, ?_⟩
  · intro w hw
    rcases List.mem_singleton.1 hw with rfl
    exact hcore_strip
  · intro j hj m _ hws' hok
    exact processChunksFrom_mem env doc chunks 1 j hj m hws' hok

/-- Witness for C3: with one page per chunk over `docW`, the first
chunk's transformation raises `boom`; the run succeeds, writes once,
and the placeholder for chunk 1 is collected. -/
theorem chunk_failure_contained_witness :
    (generate_markdown stW envW (some ⟨some "b", some "x.json"⟩)).outcome = .success ∧
    (generate_markdown stW envW (some ⟨some "b", some "x.json"⟩)).writes.length = 1 ∧
    errPlaceholder 1 "boom".data ∈ processChunksFrom envW docW 1 [⟨0, 1⟩, ⟨1, 2⟩] := by
  have h := chunk_failure_contained stW envW "b" "x.json" docW [⟨0, 1⟩, ⟨1, 2⟩] 0 "boom".data
      (by decide) rfl (by decide) (by decide) (by decide) (by decide) rfl
  exact ⟨h.1, h.2.2.1, h.2.2.2.1⟩

/-- C7 counterexample: an empty object name is not treated as
malformed input: the run is skipped with 200 (not 400), and an empty
bucket with a `.json` name does attempt a storage read. -/
theorem generate_markdown_empty_values_counterexample :
    (generate_markdown st0 env0 (some ⟨some "b", some ""⟩)).outcome = .skippedNonJson ∧
    statusOf (generate_markdown st0 env0 (some ⟨some "b", some ""⟩)).outcome = 200 ∧
    ¬ statusOf (generate_markdown st0 env0 (some ⟨some "b", some ""⟩)).outcome = 400 ∧
    (generate_markdown st0 env0 (some ⟨some "", some "a.json"⟩)).reads = [("", "a.json")] := by
  decide

/-- C7 (amended): only a payload missing the `bucket` or `name` key is
the malformed-input (400) outcome, with no storage read and no write;
empty-string values are not rejected: an empty name is handled as a
non-JSON object and skipped with 200 and zero side effects. -/
theorem generate_markdown_malformed (st : SettingsM) (env : Env) (data? : Option EventData) :
    ((data?.getD ⟨none, none⟩).bucket = none →
      generate_markdown st env data? = ⟨.malformed "bucket", [], []⟩) ∧
    (∀ b, (data?.getD ⟨none, none⟩).bucket = some b →
      (data?.getD ⟨none, none⟩).name = none →
      generate_markdown st env data? = ⟨.malformed "name", [], []⟩) ∧
    (∀ b, (data?.getD ⟨none, none⟩).bucket = some b →
      (data?.getD ⟨none, none⟩).name = some "" →
      generate_markdown st env data? = ⟨.skippedNonJson, [], []⟩) ∧
    (∀ k, statusOf (.malformed k) = 400) ∧
    statusOf .skippedNonJson = 200 := by
  refine ⟨?_, ?_, ?_, fun _ => rfl, rfl⟩
  · intro hb
    simp [generate_markdown, hb]
  · intro b hb hn
    simp [generate_markdown, hb, hn]
  · intro b hb hn
    have hext : endsWithStr "" ".json" = false := rfl
    simp [generate_markdown, hb, hn, hext]

/-- Witness for C7: the three validation outcomes at concrete events. -/
theorem generate_markdown_malformed_witness :
    generate_markdown st0 env0 (some ⟨none, some "x.json"⟩)
      = ⟨.malformed "bucket", [], []⟩ ∧
    generate_markdown st0 env0 (some ⟨some "b", none⟩) = ⟨.malformed "name", [], []⟩ ∧
    generate_markdown st0 env0 (some ⟨some "b", some ""⟩) = ⟨.skippedNonJson, [], []⟩ ∧
    statusOf (.malformed "bucket") = 400 := by
  have h1 := (generate_markdown_malformed st0 env0 (some ⟨none, some "x.json"⟩)).1 rfl
  have h2 := (generate_markdown_malformed st0 env0 (some ⟨some "b", none⟩)).2.1 "b" rfl rfl
  have h3 := (generate_markdown_malformed st0 env0 (some ⟨some "b", some ""⟩)).2.2.1 "b" rfl rfl
  exact ⟨h1, h2, h3, rfl⟩

/-- C8: a decoded document with zero pages terminates with the benign
no-pages outcome (200) and no write; a non-empty document whose
aggregate strips to empty terminates with the benign empty-markdown
outcome (200) and no write. -/
theorem empty_document_no_write
    (st : SettingsM) (env : Env) (bucket name : String) (doc : DocAIJson)
    (hjson : endsWithStr name ".json" = true)
    (hdl : env.download bucket name = some doc) :
    ((doc.pages).getD [] = [] →
      generate_markdown st env (some ⟨some bucket, some name⟩)
        = ⟨.noPages, [(bucket, name)], []⟩) ∧
    (0 < ((doc.pages).getD []).length →
      pyStrip (List.intercalate mdSep (processChunksFrom env doc 1
        (build_page_chunks ((((doc.pages).getD []).length : Nat) : Int) st.chunk_size))) = [] →
      generate_markdown st env (some ⟨some bucket, some name⟩)
        = ⟨.emptyMarkdown, [(bucket, name)], []⟩) ∧
    statusOf .noPages = 200 ∧ statusOf .emptyMarkdown = 200 := by
  refine ⟨?_, ?_, rfl, rfl⟩
  · intro hp
    simp [generate_markdown, hjson, hdl, hp]
  · intro hpg hempty
    rw [generate_markdown_run st env bucket name doc hjson hdl hpg, if_pos hempty]

/-- Witness for C8: the zero-page document yields Empty with no write,
and an all-whitespace document yields the empty-markdown outcome with
no write. -/
theorem empty_document_no_write_witness :
    generate_markdown st0 envZ (some ⟨some "b", some "z.json"⟩)
      = ⟨.noPages, [("b", "z.json")], []⟩ ∧
    generate_markdown st0 envZ (some ⟨some "b", some "s.json"⟩)
      = ⟨.emptyMarkdown, [("b", "s.json")], []⟩ := by
  have h1 := (empty_document_no_write st0 envZ "b" "z.json" docZ (by decide) (by decide)).1 rfl
  have h2 := (empty_document_no_write st0 envZ "b" "s.json" docS (by decide) (by decide)).2.1
      (by decide) (by decide)
  exact ⟨h1, h2⟩

unseal List.merge List.mergeSort in
/-- C1: evaluation of the orchestrator at the repository's own
group-aggregation scenario: with both part-files of the `book-1` group
in storage and the trigger on the second, the run reads only the
triggering object, never reads the sibling `0.json`, and the single
artifact `book-1.md` contains only the trigger's text — while the
repository's own ordering helper would have put `0.json` first. The
entrypoint never lists or aggregates the group. -/
theorem generate_markdown_reads_only_trigger :
    (generate_markdown st0 envG
        (some ⟨some "b", some "book-1.pdf_json/1.json"⟩)).reads
      = [("b", "book-1.pdf_json/1.json")] ∧
    ¬ ("b", "book-1.pdf_json/0.json") ∈ (generate_markdown st0 envG
        (some ⟨some "b", some "book-1.pdf_json/1.json"⟩)).reads ∧
    (generate_markdown st0 envG
        (some ⟨some "b", some "book-1.pdf_json/1.json"⟩)).writes
      = [("out", "book-1.md".data, "beta".data)] ∧
    sort_json_object_names ["book-1.pdf_json/1.json", "book-1.pdf_json/0.json"]
      = ["book-1.pdf_json/0.json", "book-1.pdf_json/1.json"] := by
  decide
